import Mathlib

/-!
Verification development for a Rust map-reduce statistics aggregator
(`TP1-Concurrentes`).  The program reads line-delimited JSON partitions,
turns every line into a single-site fragment (`process_sites`' map stage),
merges fragments and partial aggregates with a reduce combiner built on
`Site::add` / `Tag::add`, and finally computes bounded "chatty" rankings
(`get_chatty`, `ProcessedSites::process_chatty`).

Modelling conventions:
* Rust `HashMap<String, V>` values are embedded as association lists
  `List (String × V)`; `entry(k).and_modify(f).or_insert(v)` becomes
  `updateEntry f k v`, `insert` becomes `insertEntry`, `get` becomes
  `lookup`.  HashMap equality is key-value equality, so all statements
  about map contents are phrased through `lookup`.
* Rust `usize` counters are embedded as `Nat` (the program only ever adds,
  so no overflow modelling is needed for the stated properties).
* The `f64` ratios of `process_chatty` are embedded as exact rationals
  `ℚ`; `f64::total_cmp` on these values is the linear order of `ℚ`.
* `sort_by` with a total antisymmetric comparator returns the unique
  sorted permutation of its input, embedded via `List.insertionSort`.
* Rust `char::is_whitespace` is embedded as `Char.isWhitespace`.
* The rayon pipeline of `process_sites` is embedded by its deterministic
  denotation (a sequential left fold over all per-line fragments) plus an
  explicit reduction-tree semantics `RTree` covering every grouping of
  the fragments into identity-seeded segments and every pairwise
  combination order of the segment results.
-/

namespace StackStats

/-- Constant `PADRON` from `processed_sites.rs`. -/
def PADRON : String := "106160"

/-- Embeds `Tag` (tag.rs): the number of questions a tag appears in and the
number of words of all those questions. -/
structure Tag where
  questions : Nat
  words : Nat
deriving DecidableEq, Repr

/-- Embeds `Tag::add` (tag.rs), which is also what `AddAssign for Tag`
computes: field-wise addition. -/
def Tag.add (t u : Tag) : Tag :=
  ⟨t.questions + u.questions, t.words + u.words⟩

/-- Association-list embedding of `HashMap::get` (first entry with the key). -/
def lookup {α : Type} (k : String) : List (String × α) → Option α
  | [] => none
  | e :: rest => if e.1 = k then some e.2 else lookup k rest

/-- Association-list embedding of `HashMap::entry(k).and_modify(f).or_insert(v)`:
modify the entry for `k` in place when present, append `(k, v)` otherwise. -/
def updateEntry {α : Type} (f : α → α) (k : String) (v : α) :
    List (String × α) → List (String × α)
  | [] => [(k, v)]
  | e :: rest => if e.1 = k then (e.1, f e.2) :: rest else e :: updateEntry f k v rest

/-- Association-list embedding of `HashMap::insert` (overwrite semantics). -/
def insertEntry {α : Type} (k : String) (v : α) (m : List (String × α)) :
    List (String × α) :=
  updateEntry (fun _ => v) k v m

/-- Folding one map into another entry by entry with a combining function:
the iteration pattern `other.iter().for_each(entry(k).and_modify(add).or_insert(v))`
used by `Site::add` and by the reduce combiner of `process_sites`. -/
def mergeInto {α : Type} (add : α → α → α) (m other : List (String × α)) :
    List (String × α) :=
  other.foldl (fun acc kv => updateEntry (fun x => add x kv.2) kv.1 kv.2 acc) m

/-- Embeds `Site` (site.rs). -/
structure Site where
  questions : Nat
  words : Nat
  tags : List (String × Tag)
  chatty_tags : List String
deriving DecidableEq, Repr

/-- Embeds `Site::add` (site.rs): add the counters, fold the other site's
tags in with `Tag::add` (via `AddAssign`), keep `self`'s `chatty_tags`. -/
def Site.add (s o : Site) : Site :=
  { questions := s.questions + o.questions
    words := s.words + o.words
    tags := mergeInto Tag.add s.tags o.tags
    chatty_tags := s.chatty_tags }

/-- Embeds `ProcessedSites` (processed_sites.rs). -/
structure ProcessedSites where
  padron : String
  sites : List (String × Site)
  tags : List (String × Tag)
  totals : List (String × List String)
deriving DecidableEq, Repr

/-- Embeds `Line` (line.rs): the decoded shape of one JSON line. -/
structure Line where
  texts : List String
  tags : List String
deriving DecidableEq, Repr

/-- Token counter behind `str::split_whitespace().count()`: number of maximal
runs of non-whitespace characters.  The `Bool` records whether the scan is
currently inside a token. -/
def countTokens : Bool → List Char → Nat
  | _, [] => 0
  | inWord, c :: cs =>
    if c.isWhitespace then countTokens false cs
    else if inWord then countTokens true cs else 1 + countTokens true cs

/-- Embeds `full_text.split_whitespace().count()` from the map stage. -/
def wordCount (s : String) : Nat := countTokens false s.data

/-- Embeds `Vec<String>::join(" ")` from the map stage. -/
def joinSpace : List String → String
  | [] => ""
  | [t] => t
  | t :: ts => t ++ " " ++ joinSpace ts

/-- Word count of one line: `line_data.texts.join(" ").split_whitespace().count()`. -/
def lineWords (l : Line) : Nat := wordCount (joinSpace l.texts)

/-- Embeds the tag-map construction of the map stage:
`for tag in line_data.tags { tags.insert(tag, Tag::new(1, words)); }`. -/
def lineTags (ts : List String) (w : Nat) : List (String × Tag) :=
  ts.foldl (fun m tag => insertEntry tag ⟨1, w⟩ m) []

/-- Embeds the map closure of `process_sites`: one line becomes a
`ProcessedSites` holding a single `Site` with one question, the line's word
count, a tag map giving every tag of the line the full stat, empty
`chatty_tags`, and empty global `tags` / `totals` maps. -/
def lineFragment (filename : String) (l : Line) : ProcessedSites :=
  let words := lineWords l
  ⟨PADRON, [(filename, ⟨1, words, lineTags l.tags words, []⟩)], [], []⟩

/-- Embeds the reduce closure of `process_sites`: for every site of the right
operand, merge it into the accumulator's `sites` map with `Site::add`
(inserting a copy when the source name is new) and fold that site's tag map
into the accumulator's global `tags` map with `Tag::add`.  The right operand's
own `padron`, `tags` and `totals` fields are never read.  `combineStep` is
the body of the `for_each` over the right operand's sites. -/
def combineStep (acc : ProcessedSites) (kv : String × Site) : ProcessedSites :=
  { acc with
      sites := updateEntry (fun s => Site.add s kv.2) kv.1 kv.2 acc.sites
      tags := mergeInto Tag.add acc.tags kv.2.tags }

def combine (total ps : ProcessedSites) : ProcessedSites :=
  ps.sites.foldl combineStep total

/-- Embeds the identity element of the rayon `reduce` in `process_sites`. -/
def emptyPS : ProcessedSites := ⟨PADRON, [], [], []⟩

/-- The per-line fragments of a list of partitions, in partition order:
the element stream of `flat_map` + `map` inside `process_sites`. -/
def allFragments (parts : List (String × List Line)) : List ProcessedSites :=
  parts.flatMap (fun p => p.2.map (lineFragment p.1))

/-- Deterministic denotation of `process_sites`: the sequential left fold of
the reduce closure over all per-line fragments, seeded with the identity. -/
def process_sites (parts : List (String × List Line)) : ProcessedSites :=
  (allFragments parts).foldl combine emptyPS

/-- Lexicographic order on character sequences: the order `str::cmp` (and
byte-wise comparison of UTF-8 strings, which agrees with code-point order)
induces on the strings compared by `get_chatty`'s tie-break. -/
def charListLe : List Char → List Char → Prop
  | [], _ => True
  | _ :: _, [] => False
  | a :: as, b :: bs => a < b ∨ (a = b ∧ charListLe as bs)

def charListLeDec : (as bs : List Char) → Decidable (charListLe as bs)
  | [], _ => isTrue trivial
  | _ :: _, [] => isFalse id
  | a :: as, b :: bs =>
    haveI := charListLeDec as bs
    inferInstanceAs (Decidable (a < b ∨ (a = b ∧ charListLe as bs)))

instance (as bs : List Char) : Decidable (charListLe as bs) :=
  charListLeDec as bs

/-- Ascending lexicographic order on key strings (`item_1.0.cmp(item_2.0)`
being `Less` or `Equal`). -/
def strLe (a b : String) : Prop := charListLe a.data b.data

instance (a b : String) : Decidable (strLe a b) :=
  charListLeDec a.data b.data

/-- Comparator of `get_chatty` as a relation (`item_1` sorts no later than
`item_2`): descending by ratio, ties broken by ascending key order.  This is
`match item_2.1.total_cmp(&item_1.1) { Equal => item_1.0.cmp(item_2.0), o => o }`. -/
def chattyLe (i1 i2 : String × ℚ) : Prop :=
  i2.2 < i1.2 ∨ (i1.2 = i2.2 ∧ strLe i1.1 i2.1)

instance : DecidableRel chattyLe := by
  intro i1 i2
  unfold chattyLe
  infer_instance

instance : IsTotal (String × ℚ) chattyLe := by
  have htot : ∀ as bs : List Char, charListLe as bs ∨ charListLe bs as := by
    intro as
    induction as with
    | nil => intro bs; exact Or.inl trivial
    | cons a as ih =>
      intro bs
      cases bs with
      | nil => exact Or.inr trivial
      | cons b bs =>
        rcases lt_trichotomy a b with h | h | h
        · exact Or.inl (Or.inl h)
        · rcases ih bs with h2 | h2
          · exact Or.inl (Or.inr ⟨h, h2⟩)
          · exact Or.inr (Or.inr ⟨h.symm, h2⟩)
        · exact Or.inr (Or.inl h)
  constructor
  intro a b
  rcases lt_trichotomy a.2 b.2 with h | h | h
  · exact Or.inr (Or.inl h)
  · rcases htot a.1.data b.1.data with h1 | h1
    · exact Or.inl (Or.inr ⟨h, h1⟩)
    · exact Or.inr (Or.inr ⟨h.symm, h1⟩)
  · exact Or.inl (Or.inl h)

instance : IsTrans (String × ℚ) chattyLe := by
  have htr : ∀ as bs cs : List Char,
      charListLe as bs → charListLe bs cs → charListLe as cs := by
    intro as
    induction as with
    | nil => intro bs cs _ _; trivial
    | cons a as ih =>
      intro bs cs hab hbc
      cases bs with
      | nil => exact hab.elim
      | cons b bs =>
        cases cs with
        | nil => exact hbc.elim
        | cons c cs =>
          rcases hab with h1 | ⟨h1, h1r⟩
          · rcases hbc with h2 | ⟨h2, _⟩
            · exact Or.inl (h1.trans h2)
            · exact Or.inl (h2 ▸ h1)
          · rcases hbc with h2 | ⟨h2, h2r⟩
            · exact Or.inl (h1 ▸ h2)
            · exact Or.inr ⟨h1.trans h2, ih bs cs h1r h2r⟩
  constructor
  intro a b c hab hbc
  rcases hab with h1 | ⟨e1, k1⟩
  · rcases hbc with h2 | ⟨e2, _⟩
    · exact Or.inl (h2.trans h1)
    · exact Or.inl (e2 ▸ h1)
  · rcases hbc with h2 | ⟨e2, k2⟩
    · exact Or.inl (e1 ▸ h2)
    · exact Or.inr ⟨e1.trans e2, htr _ _ _ k1 k2⟩

instance : IsAntisymm (String × ℚ) chattyLe := by
  have hanti : ∀ as bs : List Char,
      charListLe as bs → charListLe bs as → as = bs := by
    intro as
    induction as with
    | nil =>
      intro bs h1 h2
      cases bs with
      | nil => rfl
      | cons b bs => exact h2.elim
    | cons a as ih =>
      intro bs h1 h2
      cases bs with
      | nil => exact h1.elim
      | cons b bs =>
        rcases h1 with h | ⟨he, hr⟩
        · rcases h2 with h2 | ⟨he2, _⟩
          · exact absurd (h.trans h2) (lt_irrefl a)
          · exact absurd h (by rw [he2]; exact lt_irrefl a)
        · rcases h2 with h2 | ⟨he2, hr2⟩
          · exact absurd h2 (by rw [he]; exact lt_irrefl b)
          · rw [he, ih bs hr hr2]
  constructor
  intro a b hab hba
  rcases hab with h1 | ⟨e1, k1⟩
  · rcases hba with h2 | ⟨e2, _⟩
    · exact absurd (h1.trans h2) (lt_irrefl _)
    · exact absurd h1 (e2 ▸ lt_irrefl _)
  · rcases hba with h2 | ⟨e2, k2⟩
    · exact absurd h2 (e1 ▸ lt_irrefl _)
    · have hs : a.1 = b.1 := by
        have hd := hanti a.1.data b.1.data k1 k2
        cases ha : a.1 with
        | mk da =>
          cases hb : b.1 with
          | mk db =>
            rw [ha, hb] at hd
            simp only at hd
            rw [hd]
      exact Prod.ext hs e1

/-- Embeds `get_chatty` (processed_sites.rs): sort by the comparator, keep at
most the first 10 items, return the keys.  `sort_by` with a total,
transitive, antisymmetric comparator has a unique possible output (the sorted
permutation of the input), embedded here via `List.insertionSort`. -/
def get_chatty (items : List (String × ℚ)) : List String :=
  ((List.insertionSort chattyLe items).take 10).map Prod.fst

/-- Ratio `site.words as f64 / site.questions as f64`, embedded exactly. -/
def siteRatio (s : Site) : ℚ := (s.words : ℚ) / (s.questions : ℚ)

/-- Ratio `tag.words as f64 / tag.questions as f64`, embedded exactly. -/
def tagRatio (t : Tag) : ℚ := (t.words : ℚ) / (t.questions : ℚ)

/-- Per-site mutation of `process_chatty`:
`site.chatty_tags.extend(get_chatty(chatty_tags))` — append the site's own
tag ranking to its `chatty_tags`, leaving the counters and tag map alone. -/
def extendChatty (s : Site) : Site :=
  { s with
      chatty_tags :=
        s.chatty_tags ++
          get_chatty (s.tags.map (fun tv => (tv.1, tagRatio tv.2))) }

/-- Embeds `ProcessedSites::process_chatty`: insert (overwriting) the
`"chatty_sites"` and `"chatty_tags"` rankings into `totals`, then extend
(append to) every site's `chatty_tags` with that site's own tag ranking. -/
def process_chatty (ps : ProcessedSites) : ProcessedSites :=
  let totals1 :=
    insertEntry "chatty_sites"
      (get_chatty (ps.sites.map (fun kv => (kv.1, siteRatio kv.2)))) ps.totals
  let totals2 :=
    insertEntry "chatty_tags"
      (get_chatty (ps.tags.map (fun kv => (kv.1, tagRatio kv.2)))) totals1
  { ps with
      totals := totals2
      sites := ps.sites.map (fun kv => (kv.1, extendChatty kv.2)) }

/-! Basic facts about the association-list embedding of `HashMap`. -/

/-- Keys of an association list, in entry order. -/
def keys {α : Type} (m : List (String × α)) : List String := m.map Prod.fst

/-- Representation invariant of a `HashMap` embedded as an association list:
every key occurs in at most one entry. -/
def NodupKeys {α : Type} (m : List (String × α)) : Prop := (keys m).Nodup

instance {α : Type} (m : List (String × α)) : Decidable (NodupKeys m) :=
  inferInstanceAs (Decidable (keys m).Nodup)

/-- Option-level `Tag::add`: the per-key effect of
`entry(k).and_modify(|t| t.add(tag)).or_insert(tag)` on one key. -/
def oadd : Option Tag → Option Tag → Option Tag
  | none, o => o
  | some a, none => some a
  | some a, some b => some (Tag.add a b)

/-- Sum of a list of optional tag stats. -/
def listOsum (l : List (Option Tag)) : Option Tag := l.foldr oadd none

/-- Questions component of an optional stat (absent counts as 0). -/
def oq (o : Option Tag) : Nat :=
  match o with
  | some t => t.questions
  | none => 0

/-- Words component of an optional stat (absent counts as 0). -/
def ow (o : Option Tag) : Nat :=
  match o with
  | some t => t.words
  | none => 0

/-- Multiset sum of the values carried by entries with key `tk`; with unique
keys this is exactly `lookup tk`. -/
def osumAt (tk : String) (m : List (String × Tag)) : Option Tag :=
  listOsum (m.map (fun kv => if kv.1 = tk then some kv.2 else none))

/-- Option-level `Site::add`: the per-source-name effect of the reduce
combiner on the `sites` map. -/
def osadd : Option Site → Option Site → Option Site
  | none, o => o
  | some s, none => some s
  | some s, some o => some (Site.add s o)

/-- Sum, over the entries of a `sites` map, of the tag stats those sites
record for tag `tk`: the total contribution a `ProcessedSites` value's sites
make to the global `tags` entry for `tk` when it is the right operand of the
reduce combiner. -/
def sitesTagSum (tk : String) (sites : List (String × Site)) : Option Tag :=
  listOsum (sites.map (fun kv => osumAt tk kv.2.tags))

/-- Per-source questions/words contribution of one fragment at source key `k`
(packed into a `Tag` as a plain pair of counters). -/
def fragQW (k : String) (f : ProcessedSites) : Option Tag :=
  (lookup k f.sites).map (fun s => ⟨s.questions, s.words⟩)

/-- Per-source per-tag contribution of one fragment. -/
def fragTagAt (k tk : String) (f : ProcessedSites) : Option Tag :=
  match lookup k f.sites with
  | some s => lookup tk s.tags
  | none => none

/-- Total questions/words contributed to source `k` by a list of fragments. -/
def qwSum (k : String) (frs : List ProcessedSites) : Option Tag :=
  listOsum (frs.map (fragQW k))

/-- Total stats contributed to tag `tk` of source `k` by a list of fragments. -/
def tagSum (k tk : String) (frs : List ProcessedSites) : Option Tag :=
  listOsum (frs.map (fragTagAt k tk))

/-- Total global-tag stats contributed to tag `tk` by a list of fragments. -/
def gtagSum (tk : String) (frs : List ProcessedSites) : Option Tag :=
  listOsum (frs.map (fun f => sitesTagSum tk f.sites))

/-- Shape invariant of every `Site` value stored while the reduce runs: its
tag map has unique keys and its ranking field is still empty (the ranking
phase has not run). -/
def GoodSite (s : Site) : Prop := NodupKeys s.tags ∧ s.chatty_tags = []

instance (s : Site) : Decidable (GoodSite s) := by
  unfold GoodSite
  infer_instance

/-- The stored site (or absence of one) at source key `k` carries exactly the
sums contributed by the fragments `frs`. -/
def SiteAt : Option Site → String → List ProcessedSites → Prop
  | none, k, frs => qwSum k frs = none
  | some s, k, frs =>
      some ⟨s.questions, s.words⟩ = qwSum k frs ∧
      (∀ tk, lookup tk s.tags = tagSum k tk frs)

/-- The `sites` map of `b` carries exactly the per-source and per-tag sums of
the fragments `frs`.  This is all the reduce combiner reads from its right
operand. -/
structure SelfSites (b : ProcessedSites) (frs : List ProcessedSites) : Prop where
  nodup : NodupKeys b.sites
  entries : ∀ e ∈ b.sites, GoodSite e.2
  siteAt : ∀ k, SiteAt (lookup k b.sites) k frs
  gsum : ∀ tk, sitesTagSum tk b.sites = gtagSum tk frs

/-- Full characterisation of a reduce accumulator built from the fragments
`frs`: its sites carry the fragment sums, its global `tags` map carries the
global tag sums, its `totals` map is empty and its `padron` is the constant. -/
structure Reaches (a : ProcessedSites) (frs : List ProcessedSites) : Prop where
  self : SelfSites a frs
  hpadron : a.padron = PADRON
  htotals : a.totals = []
  htags : ∀ tk, lookup tk a.tags = gtagSum tk frs

/-- A parallel execution schedule of the rayon `reduce` in `process_sites`:
leaves are segments of (source name, line) pairs folded sequentially from the
identity element, inner nodes combine two partial results with the reduce
closure.  Worker count and work splitting only influence which tree (and
which order of the pairs) is executed. -/
inductive RTree where
  | seg : List (String × Line) → RTree
  | node : RTree → RTree → RTree

/-- Result computed by a schedule. -/
def RTree.eval : RTree → ProcessedSites
  | seg pairs => (pairs.map (fun p => lineFragment p.1 p.2)).foldl combine emptyPS
  | node l r => combine l.eval r.eval

/-- The fragments a schedule consumes, in left-to-right order. -/
def RTree.frags : RTree → List ProcessedSites
  | seg pairs => pairs.map (fun p => lineFragment p.1 p.2)
  | node l r => l.frags ++ r.frags

/-- Equality of two sites as data: equal counters, equal tag maps (as maps),
equal rankings.  This is what `==` on the corresponding Rust values means,
with `HashMap` equality being key-value equality. -/
def SiteEq (s o : Site) : Prop :=
  s.questions = o.questions ∧ s.words = o.words ∧
  (∀ tk, lookup tk s.tags = lookup tk o.tags) ∧ s.chatty_tags = o.chatty_tags

/-- `SiteEq` lifted to optional sites. -/
def OSiteEq : Option Site → Option Site → Prop
  | none, none => True
  | some s, some o => SiteEq s o
  | _, _ => False

/-- Equality of two aggregates as data: equal `padron`, equal `sites`, `tags`
and `totals` maps (as maps, sites compared by `SiteEq`). -/
def PSEquiv (a b : ProcessedSites) : Prop :=
  a.padron = b.padron ∧
  (∀ k, OSiteEq (lookup k a.sites) (lookup k b.sites)) ∧
  (∀ tk, lookup tk a.tags = lookup tk b.tags) ∧
  (∀ k, lookup k a.totals = lookup k b.totals)

/-- Shape invariant the spec imposes on mergeable aggregates: identifier is
the constant, rankings are not populated yet (`totals` empty, every stored
site has empty `chatty_tags` and a well-formed tag map, the sites map is
well-formed), and the global `tags` map is the per-tag sum of the sites' tag
maps. -/
def WellFormed (a : ProcessedSites) : Prop :=
  a.padron = PADRON ∧ a.totals = [] ∧ NodupKeys a.sites ∧
  (∀ e ∈ a.sites, GoodSite e.2) ∧
  (∀ tk, lookup tk a.tags = sitesTagSum tk a.sites)

/-- Concrete site value used to instantiate proved properties. -/
def sampleSite : Site := ⟨1, 2, [("t", ⟨1, 2⟩)], []⟩

/-- Second concrete site value used to instantiate proved properties. -/
def sampleSite2 : Site := ⟨2, 5, [("u", ⟨2, 5⟩)], []⟩

/-- Concrete aggregate used to instantiate proved properties. -/
def samplePS : ProcessedSites := ⟨PADRON, [("s", sampleSite)], [("t", ⟨1, 2⟩)], []⟩

/-- Second concrete aggregate used to instantiate proved properties. -/
def samplePS2 : ProcessedSites := ⟨PADRON, [("s2", sampleSite2)], [("u", ⟨2, 5⟩)], []⟩

/-- Concrete two-partition corpus used to instantiate proved properties:
`siteA` has one line with texts `["hello world"]` and tags `["t1"]`, `siteB`
has one line with texts `["a"]` and tags `["t1", "t2"]`. -/
def demoParts : List (String × List Line) :=
  [("siteA", [⟨["hello world"], ["t1"]⟩]), ("siteB", [⟨["a"], ["t1", "t2"]⟩])]

/-- Panic message of the map stage of `process_sites` when a line fails to
decode: the string passed to `expect` on the `serde_json::from_str` result.
The appended parser error is a function of the line text alone. -/
def PARSE_ERROR : String := "[ERRROR] No se pudo parsear la línea JSON a un struct Line"

/-- Map stage on one raw line, decode outcome included: `serde_json::from_str`
either produces a `Line` (modelled as `some line`) or fails (`none`), in
which case `expect` aborts the run with the fixed message `PARSE_ERROR`. -/
def lineFragmentE (filename : String) : Option Line → Except String ProcessedSites
  | some l => Except.ok (lineFragment filename l)
  | none => Except.error PARSE_ERROR

/-- Raw-line fragments of a list of partitions whose lines may fail to
decode. -/
def allFragmentsE (parts : List (String × List (Option Line))) :
    List (Except String ProcessedSites) :=
  parts.flatMap (fun p => p.2.map (lineFragmentE p.1))

/-- Abort-on-first-error fold of the reduce closure. -/
def foldE : List (Except String ProcessedSites) → ProcessedSites →
    Except String ProcessedSites
  | [], acc => Except.ok acc
  | Except.error e :: _, _ => Except.error e
  | Except.ok f :: rest, acc => foldE rest (combine acc f)

/-- Error-propagating denotation of `process_sites` over raw lines: the first
line that fails to decode aborts the whole computation and no aggregate is
produced; if every line decodes, the result is the pure `process_sites`. -/
def processSitesE (parts : List (String × List (Option Line))) :
    Except String ProcessedSites :=
  foldE (allFragmentsE parts) emptyPS

theorem lookup_updateEntry {α : Type} (f : α → α) (k' : String) (v : α)
    (k : String) (m : List (String × α)) :
    lookup k (updateEntry f k' v m) =
      if k' = k then
        match lookup k m with
        | some w => some (f w)
        | none => some v
      else lookup k m := by
  induction m with
  | nil =>
    by_cases h : k' = k <;> simp [updateEntry, lookup, h]
  | cons e rest ih =>
    by_cases h1 : e.1 = k'
    · by_cases h2 : k' = k
      · subst h2
        simp [updateEntry, lookup, h1]
      · have h3 : ¬ e.1 = k := by rw [h1]; exact h2
        simp [updateEntry, lookup, h1, h2, h3]
    · by_cases h3 : e.1 = k
      · have h2 : ¬ k' = k := fun hk => h1 (h3.trans hk.symm)
        have h4 : ¬ k = k' := fun hk => h2 hk.symm
        simp [updateEntry, lookup, h1, h2, h3, h4]
      · simp [updateEntry, lookup, h1, h3, ih]

theorem keys_updateEntry {α : Type} (f : α → α) (k : String) (v : α)
    (m : List (String × α)) :
    keys (updateEntry f k v m) =
      if k ∈ keys m then keys m else keys m ++ [k] := by
  induction m with
  | nil => simp [updateEntry, keys]
  | cons e rest ih =>
    by_cases h1 : e.1 = k
    · simp [updateEntry, keys, h1]
    · have h2 : ¬ k = e.1 := fun hk => h1 hk.symm
      by_cases h3 : k ∈ keys rest <;>
      · simp only [updateEntry, if_neg h1, keys, List.map_cons] at ih ⊢
        rw [ih]
        simp only [keys] at h3
        simp [List.mem_cons, h2, h3]

theorem nodupKeys_updateEntry {α : Type} (f : α → α) (k : String) (v : α)
    {m : List (String × α)} (h : NodupKeys m) :
    NodupKeys (updateEntry f k v m) := by
  unfold NodupKeys at h ⊢
  rw [keys_updateEntry]
  by_cases hm : k ∈ keys m
  · simpa [hm] using h
  · simpa [hm, List.nodup_append] using h

theorem mem_of_lookup_eq_some {α : Type} {k : String} {v : α}
    {m : List (String × α)} (h : lookup k m = some v) : (k, v) ∈ m := by
  induction m with
  | nil => simp [lookup] at h
  | cons e rest ih =>
    by_cases h1 : e.1 = k
    · simp [lookup, h1] at h
      cases e with
      | mk ek ev =>
        simp only at h h1
        subst h1
        subst h
        exact List.mem_cons_self _ _
    · simp [lookup, h1] at h
      exact List.mem_cons_of_mem _ (ih h)

theorem lookup_eq_none_of_not_mem_keys {α : Type} {k : String}
    {m : List (String × α)} (h : k ∉ keys m) : lookup k m = none := by
  induction m with
  | nil => rfl
  | cons e rest ih =>
    have hk : keys (e :: rest) = e.1 :: keys rest := rfl
    rw [hk, List.mem_cons] at h
    push_neg at h
    have h1 : ¬ e.1 = k := fun he => h.1 he.symm
    simp [lookup, h1, ih h.2]

theorem updateEntry_values {α : Type} {P : α → Prop} {f : α → α} {k : String}
    {v : α} {m : List (String × α)} (hm : ∀ e ∈ m, P e.2)
    (hf : ∀ x, P x → P (f x)) (hv : P v) :
    ∀ e ∈ updateEntry f k v m, P e.2 := by
  induction m with
  | nil =>
    intro e he
    simp [updateEntry] at he
    simp [he, hv]
  | cons a rest ih =>
    intro e he
    by_cases h1 : a.1 = k
    · simp [updateEntry, h1] at he
      rcases he with he | he
      · simp [he]
        exact hf _ (hm a (by simp))
      · exact hm e (List.mem_cons_of_mem _ he)
    · simp [updateEntry, h1] at he
      rcases he with he | he
      · exact hm e (by simp [he])
      · exact ih (fun e' he' => hm e' (List.mem_cons_of_mem _ he')) e he

/-! Option-level addition of `Tag` stats and sums of such options. -/

theorem Tag.add_assoc (a b c : Tag) : Tag.add (Tag.add a b) c = Tag.add a (Tag.add b c) := by
  simp [Tag.add, Nat.add_assoc]

theorem Tag.add_comm (a b : Tag) : Tag.add a b = Tag.add b a := by
  simp [Tag.add, Nat.add_comm]

theorem oadd_none_right (x : Option Tag) : oadd x none = x := by
  cases x <;> rfl

theorem oadd_assoc (x y z : Option Tag) : oadd (oadd x y) z = oadd x (oadd y z) := by
  cases x <;> cases y <;> cases z <;> simp [oadd, Tag.add_assoc]

theorem oadd_comm (x y : Option Tag) : oadd x y = oadd y x := by
  cases x <;> cases y <;> simp [oadd, Tag.add_comm]

theorem oadd_left_comm (x y z : Option Tag) : oadd x (oadd y z) = oadd y (oadd x z) := by
  rw [← oadd_assoc, oadd_comm x y, oadd_assoc]

theorem oadd_right_comm (x y z : Option Tag) : oadd (oadd x y) z = oadd (oadd x z) y := by
  rw [oadd_assoc, oadd_comm y z, ← oadd_assoc]

theorem listOsum_nil : listOsum [] = none := rfl

theorem listOsum_cons (x : Option Tag) (l : List (Option Tag)) :
    listOsum (x :: l) = oadd x (listOsum l) := rfl

theorem listOsum_append (l1 l2 : List (Option Tag)) :
    listOsum (l1 ++ l2) = oadd (listOsum l1) (listOsum l2) := by
  induction l1 with
  | nil => simp [listOsum_nil, oadd]
  | cons x l ih =>
    simp only [List.cons_append, listOsum_cons, ih, oadd_assoc]

theorem listOsum_perm {l1 l2 : List (Option Tag)} (h : l1.Perm l2) :
    listOsum l1 = listOsum l2 := by
  induction h with
  | nil => rfl
  | cons x _ ih => simp [listOsum_cons, ih]
  | swap x y l => simp [listOsum_cons, oadd_left_comm]
  | trans _ _ ih1 ih2 => exact ih1.trans ih2

theorem oadd_eq_none_iff (x y : Option Tag) :
    oadd x y = none ↔ x = none ∧ y = none := by
  cases x <;> cases y <;> simp [oadd]

theorem listOsum_eq_none_iff (l : List (Option Tag)) :
    listOsum l = none ↔ ∀ o ∈ l, o = none := by
  induction l with
  | nil => simp [listOsum_nil]
  | cons x l ih => simp [listOsum_cons, oadd_eq_none_iff, ih]

theorem oq_oadd (x y : Option Tag) : oq (oadd x y) = oq x + oq y := by
  cases x <;> cases y <;> simp [oq, oadd, Tag.add]

theorem ow_oadd (x y : Option Tag) : ow (oadd x y) = ow x + ow y := by
  cases x <;> cases y <;> simp [ow, oadd, Tag.add]

theorem oq_listOsum (l : List (Option Tag)) : oq (listOsum l) = (l.map oq).sum := by
  induction l with
  | nil => simp [listOsum_nil, oq]
  | cons x l ih => simp [listOsum_cons, oq_oadd, ih]

theorem ow_listOsum (l : List (Option Tag)) : ow (listOsum l) = (l.map ow).sum := by
  induction l with
  | nil => simp [listOsum_nil, ow]
  | cons x l ih => simp [listOsum_cons, ow_oadd, ih]

theorem listOsum_questions_pos {l : List (Option Tag)}
    (h : ∀ o ∈ l, ∀ t : Tag, o = some t → 1 ≤ t.questions) {t : Tag}
    (ht : listOsum l = some t) : 1 ≤ t.questions := by
  induction l generalizing t with
  | nil => simp [listOsum_nil] at ht
  | cons x l ih =>
    rw [listOsum_cons] at ht
    cases hx : x with
    | none =>
      subst hx
      simp only [oadd] at ht
      exact ih (fun o ho => h o (List.mem_cons_of_mem _ ho)) ht
    | some a =>
      have ha : 1 ≤ a.questions := h x (by simp) a hx
      subst hx
      cases hs : listOsum l with
      | none =>
        rw [hs] at ht
        simp only [oadd, Option.some.injEq] at ht
        exact ht ▸ ha
      | some b =>
        rw [hs] at ht
        simp only [oadd, Option.some.injEq] at ht
        subst ht
        simp only [Tag.add]
        exact le_trans ha (Nat.le_add_right _ _)

theorem osumAt_nil (tk : String) : osumAt tk [] = none := rfl

theorem osumAt_cons (tk : String) (e : String × Tag) (m : List (String × Tag)) :
    osumAt tk (e :: m) =
      oadd (if e.1 = tk then some e.2 else none) (osumAt tk m) := rfl

theorem osumAt_eq_none_of_not_mem_keys {tk : String} {m : List (String × Tag)}
    (h : tk ∉ keys m) : osumAt tk m = none := by
  induction m with
  | nil => rfl
  | cons e rest ih =>
    have hk : keys (e :: rest) = e.1 :: keys rest := rfl
    rw [hk, List.mem_cons] at h
    push_neg at h
    have h1 : ¬ e.1 = tk := fun he => h.1 he.symm
    rw [osumAt_cons, if_neg h1, ih h.2]
    rfl

theorem osumAt_eq_lookup {tk : String} {m : List (String × Tag)}
    (h : NodupKeys m) : osumAt tk m = lookup tk m := by
  induction m with
  | nil => rfl
  | cons e rest ih =>
    have hk : NodupKeys (e :: rest) ↔ e.1 ∉ keys rest ∧ NodupKeys rest := by
      simp [NodupKeys, keys]
    rw [hk] at h
    rw [osumAt_cons]
    by_cases h1 : e.1 = tk
    · have : osumAt tk rest = none :=
        osumAt_eq_none_of_not_mem_keys (h1 ▸ h.1)
      rw [this, oadd_none_right]
      simp [lookup, h1]
    · rw [if_neg h1, ih h.2]
      simp [lookup, h1, oadd]

theorem osumAt_updateEntryAdd (v : Tag) (k tk : String) (m : List (String × Tag)) :
    osumAt tk (updateEntry (fun t => Tag.add t v) k v m) =
      if k = tk then oadd (osumAt tk m) (some v) else osumAt tk m := by
  induction m with
  | nil =>
    by_cases h : k = tk <;> simp [updateEntry, osumAt, listOsum, oadd, h]
  | cons e rest ih =>
    by_cases h1 : e.1 = k
    · have hupd : updateEntry (fun t => Tag.add t v) k v (e :: rest) =
          (e.1, Tag.add e.2 v) :: rest := by
        simp [updateEntry, h1]
      by_cases h2 : k = tk
      · have e1tk : e.1 = tk := h1.trans h2
        rw [hupd, if_pos h2, osumAt_cons, osumAt_cons, if_pos e1tk, if_pos e1tk]
        show oadd (oadd (some e.2) (some v)) (osumAt tk rest) = _
        rw [oadd_right_comm]
      · have e1tk : ¬ e.1 = tk := fun h => h2 (h1.symm.trans h)
        rw [hupd, if_neg h2, osumAt_cons, osumAt_cons, if_neg e1tk, if_neg e1tk]
    · have hupd : updateEntry (fun t => Tag.add t v) k v (e :: rest) =
          e :: updateEntry (fun t => Tag.add t v) k v rest := by
        simp [updateEntry, h1]
      rw [hupd, osumAt_cons, ih, osumAt_cons]
      by_cases h2 : k = tk
      · rw [if_pos h2, if_pos h2, ← oadd_assoc]
      · rw [if_neg h2, if_neg h2]

theorem lookup_mergeInto (tk : String) (m other : List (String × Tag)) :
    lookup tk (mergeInto Tag.add m other) = oadd (lookup tk m) (osumAt tk other) := by
  induction other generalizing m with
  | nil => simp [mergeInto, osumAt_nil, oadd_none_right]
  | cons kv rest ih =>
    have hstep : mergeInto Tag.add m (kv :: rest) =
        mergeInto Tag.add (updateEntry (fun t => Tag.add t kv.2) kv.1 kv.2 m) rest := rfl
    rw [hstep, ih, lookup_updateEntry, osumAt_cons]
    by_cases h : kv.1 = tk
    · rw [if_pos h, if_pos h]
      cases hlm : lookup tk m with
      | none =>
        show oadd (some kv.2) (osumAt tk rest) =
          oadd none (oadd (some kv.2) (osumAt tk rest))
        rfl
      | some w =>
        show oadd (some (Tag.add w kv.2)) (osumAt tk rest) =
          oadd (some w) (oadd (some kv.2) (osumAt tk rest))
        rw [← oadd_assoc]
        rfl
    · rw [if_neg h, if_neg h]
      rfl

theorem osumAt_mergeInto (tk : String) (m other : List (String × Tag)) :
    osumAt tk (mergeInto Tag.add m other) = oadd (osumAt tk m) (osumAt tk other) := by
  induction other generalizing m with
  | nil => simp [mergeInto, osumAt_nil, oadd_none_right]
  | cons kv rest ih =>
    have hstep : mergeInto Tag.add m (kv :: rest) =
        mergeInto Tag.add (updateEntry (fun t => Tag.add t kv.2) kv.1 kv.2 m) rest := rfl
    rw [hstep, ih, osumAt_updateEntryAdd, osumAt_cons]
    by_cases h : kv.1 = tk
    · rw [if_pos h, if_pos h, oadd_assoc]
    · rw [if_neg h, if_neg h]
      rfl

theorem nodupKeys_mergeInto {m : List (String × Tag)}
    (other : List (String × Tag)) (h : NodupKeys m) :
    NodupKeys (mergeInto Tag.add m other) := by
  induction other generalizing m with
  | nil => exact h
  | cons kv rest ih => exact ih (nodupKeys_updateEntry _ _ _ h)

theorem lookup_tags_siteAdd (s o : Site) (tk : String) :
    lookup tk (Site.add s o).tags = oadd (lookup tk s.tags) (osumAt tk o.tags) :=
  lookup_mergeInto tk s.tags o.tags

theorem osumAt_tags_siteAdd (s o : Site) (tk : String) :
    osumAt tk (Site.add s o).tags = oadd (osumAt tk s.tags) (osumAt tk o.tags) :=
  osumAt_mergeInto tk s.tags o.tags

/-! Lemmas about the reduce combiner `combine` of `process_sites`. -/

theorem osadd_none_right (x : Option Site) : osadd x none = x := by
  cases x <;> rfl

theorem sitesTagSum_nil (tk : String) : sitesTagSum tk [] = none := rfl

theorem sitesTagSum_cons (tk : String) (e : String × Site) (m : List (String × Site)) :
    sitesTagSum tk (e :: m) = oadd (osumAt tk e.2.tags) (sitesTagSum tk m) := rfl

theorem sitesTagSum_updateEntrySiteAdd (o : Site) (k tk : String)
    (m : List (String × Site)) :
    sitesTagSum tk (updateEntry (fun s => Site.add s o) k o m) =
      oadd (sitesTagSum tk m) (osumAt tk o.tags) := by
  induction m with
  | nil =>
    show oadd (osumAt tk o.tags) none = oadd none (osumAt tk o.tags)
    rw [oadd_none_right]
    rfl
  | cons e rest ih =>
    by_cases h1 : e.1 = k
    · have hupd : updateEntry (fun s => Site.add s o) k o (e :: rest) =
          (e.1, Site.add e.2 o) :: rest := by
        simp [updateEntry, h1]
      rw [hupd, sitesTagSum_cons, sitesTagSum_cons]
      show oadd (osumAt tk (Site.add e.2 o).tags) _ = _
      rw [osumAt_tags_siteAdd, oadd_right_comm]
    · have hupd : updateEntry (fun s => Site.add s o) k o (e :: rest) =
          e :: updateEntry (fun s => Site.add s o) k o rest := by
        simp [updateEntry, h1]
      rw [hupd, sitesTagSum_cons, ih, sitesTagSum_cons, ← oadd_assoc]

theorem foldl_combineStep_padron (l : List (String × Site)) (acc : ProcessedSites) :
    (l.foldl combineStep acc).padron = acc.padron := by
  induction l generalizing acc with
  | nil => rfl
  | cons kv rest ih => exact ih (combineStep acc kv)

theorem foldl_combineStep_totals (l : List (String × Site)) (acc : ProcessedSites) :
    (l.foldl combineStep acc).totals = acc.totals := by
  induction l generalizing acc with
  | nil => rfl
  | cons kv rest ih => exact ih (combineStep acc kv)

theorem lookup_tags_foldl_combineStep (tk : String) (l : List (String × Site))
    (acc : ProcessedSites) :
    lookup tk (l.foldl combineStep acc).tags =
      oadd (lookup tk acc.tags) (sitesTagSum tk l) := by
  induction l generalizing acc with
  | nil => rw [sitesTagSum_nil, oadd_none_right]; rfl
  | cons kv rest ih =>
    show lookup tk (rest.foldl combineStep (combineStep acc kv)).tags = _
    rw [ih, sitesTagSum_cons]
    show oadd (lookup tk (mergeInto Tag.add acc.tags kv.2.tags)) _ = _
    rw [lookup_mergeInto, oadd_assoc]

theorem sitesTagSum_foldl_combineStep (tk : String) (l : List (String × Site))
    (acc : ProcessedSites) :
    sitesTagSum tk (l.foldl combineStep acc).sites =
      oadd (sitesTagSum tk acc.sites) (sitesTagSum tk l) := by
  induction l generalizing acc with
  | nil => rw [sitesTagSum_nil, oadd_none_right]; rfl
  | cons kv rest ih =>
    show sitesTagSum tk (rest.foldl combineStep (combineStep acc kv)).sites = _
    rw [ih, sitesTagSum_cons]
    show oadd (sitesTagSum tk (updateEntry (fun s => Site.add s kv.2) kv.1 kv.2 acc.sites)) _ = _
    rw [sitesTagSum_updateEntrySiteAdd, oadd_assoc]

theorem nodupKeys_sites_foldl_combineStep (l : List (String × Site))
    {acc : ProcessedSites} (h : NodupKeys acc.sites) :
    NodupKeys (l.foldl combineStep acc).sites := by
  induction l generalizing acc with
  | nil => exact h
  | cons kv rest ih => exact ih (nodupKeys_updateEntry _ _ _ h)

theorem sites_values_foldl_combineStep {P : Site → Prop}
    (hadd : ∀ s o, P s → P o → P (Site.add s o)) (l : List (String × Site))
    {acc : ProcessedSites} (ha : ∀ e ∈ acc.sites, P e.2)
    (hl : ∀ e ∈ l, P e.2) :
    ∀ e ∈ (l.foldl combineStep acc).sites, P e.2 := by
  induction l generalizing acc with
  | nil => exact ha
  | cons kv rest ih =>
    refine ih ?_ (fun e he => hl e (List.mem_cons_of_mem _ he))
    exact updateEntry_values ha
      (fun s hs => hadd s kv.2 hs (hl kv (by simp))) (hl kv (by simp))

theorem lookup_sites_foldl_combineStep_of_no_key {k : String}
    {l : List (String × Site)} (hl : ∀ kv ∈ l, kv.1 ≠ k) (acc : ProcessedSites) :
    lookup k (l.foldl combineStep acc).sites = lookup k acc.sites := by
  induction l generalizing acc with
  | nil => rfl
  | cons kv rest ih =>
    rw [show (kv :: rest).foldl combineStep acc = rest.foldl combineStep (combineStep acc kv) from rfl,
      ih (fun e he => hl e (List.mem_cons_of_mem _ he))]
    show lookup k (updateEntry (fun s => Site.add s kv.2) kv.1 kv.2 acc.sites) = _
    rw [lookup_updateEntry, if_neg (hl kv (by simp))]

theorem lookup_sites_foldl_combineStep {k : String} {l : List (String × Site)}
    (hl : NodupKeys l) (acc : ProcessedSites) :
    lookup k (l.foldl combineStep acc).sites =
      osadd (lookup k acc.sites) (lookup k l) := by
  induction l generalizing acc with
  | nil =>
    show lookup k acc.sites = osadd (lookup k acc.sites) none
    rw [osadd_none_right]
  | cons kv rest ih =>
    have hk : NodupKeys (kv :: rest) ↔ kv.1 ∉ keys rest ∧ NodupKeys rest := by
      simp [NodupKeys, keys]
    rw [hk] at hl
    rw [show (kv :: rest).foldl combineStep acc = rest.foldl combineStep (combineStep acc kv) from rfl]
    by_cases h1 : kv.1 = k
    · have hrest : ∀ e ∈ rest, e.1 ≠ k := by
        intro e he hek
        exact hl.1 (h1 ▸ hek ▸ (by exact List.mem_map_of_mem Prod.fst he))
      rw [lookup_sites_foldl_combineStep_of_no_key hrest]
      show lookup k (updateEntry (fun s => Site.add s kv.2) kv.1 kv.2 acc.sites) = _
      rw [lookup_updateEntry, if_pos h1]
      have hlk : lookup k (kv :: rest) = some kv.2 := by simp [lookup, h1]
      rw [hlk]
      cases lookup k acc.sites <;> rfl
    · rw [ih hl.2]
      show osadd (lookup k (updateEntry (fun s => Site.add s kv.2) kv.1 kv.2 acc.sites)) _ = _
      rw [lookup_updateEntry, if_neg h1]
      have hlk : lookup k (kv :: rest) = lookup k rest := by simp [lookup, h1]
      rw [hlk]

theorem combine_padron (a b : ProcessedSites) : (combine a b).padron = a.padron :=
  foldl_combineStep_padron b.sites a

theorem combine_totals (a b : ProcessedSites) : (combine a b).totals = a.totals :=
  foldl_combineStep_totals b.sites a

theorem lookup_tags_combine (tk : String) (a b : ProcessedSites) :
    lookup tk (combine a b).tags = oadd (lookup tk a.tags) (sitesTagSum tk b.sites) :=
  lookup_tags_foldl_combineStep tk b.sites a

theorem sitesTagSum_combine (tk : String) (a b : ProcessedSites) :
    sitesTagSum tk (combine a b).sites =
      oadd (sitesTagSum tk a.sites) (sitesTagSum tk b.sites) :=
  sitesTagSum_foldl_combineStep tk b.sites a

theorem lookup_sites_combine {k : String} (a : ProcessedSites)
    {b : ProcessedSites} (hb : NodupKeys b.sites) :
    lookup k (combine a b).sites = osadd (lookup k a.sites) (lookup k b.sites) :=
  lookup_sites_foldl_combineStep hb a

/-! Characterisation of reduce-phase accumulators as fragment sums. -/

theorem qwSum_append (k : String) (l1 l2 : List ProcessedSites) :
    qwSum k (l1 ++ l2) = oadd (qwSum k l1) (qwSum k l2) := by
  unfold qwSum
  rw [List.map_append, listOsum_append]

theorem tagSum_append (k tk : String) (l1 l2 : List ProcessedSites) :
    tagSum k tk (l1 ++ l2) = oadd (tagSum k tk l1) (tagSum k tk l2) := by
  unfold tagSum
  rw [List.map_append, listOsum_append]

theorem gtagSum_append (tk : String) (l1 l2 : List ProcessedSites) :
    gtagSum tk (l1 ++ l2) = oadd (gtagSum tk l1) (gtagSum tk l2) := by
  unfold gtagSum
  rw [List.map_append, listOsum_append]

theorem qwSum_perm {frs frs' : List ProcessedSites} (k : String)
    (h : frs.Perm frs') : qwSum k frs = qwSum k frs' :=
  listOsum_perm (h.map _)

theorem tagSum_perm {frs frs' : List ProcessedSites} (k tk : String)
    (h : frs.Perm frs') : tagSum k tk frs = tagSum k tk frs' :=
  listOsum_perm (h.map _)

theorem gtagSum_perm {frs frs' : List ProcessedSites} (tk : String)
    (h : frs.Perm frs') : gtagSum tk frs = gtagSum tk frs' :=
  listOsum_perm (h.map _)

theorem tagSum_eq_none_of_qwSum_eq_none {k : String} {frs : List ProcessedSites}
    (h : qwSum k frs = none) (tk : String) : tagSum k tk frs = none := by
  rw [qwSum, listOsum_eq_none_iff] at h
  rw [tagSum, listOsum_eq_none_iff]
  intro o ho
  obtain ⟨f, hf, rfl⟩ := List.mem_map.mp ho
  have hq := h (fragQW k f) (List.mem_map_of_mem _ hf)
  unfold fragQW at hq
  unfold fragTagAt
  cases hl : lookup k f.sites with
  | none => rfl
  | some s => rw [hl] at hq; simp at hq

theorem goodSite_of_lookup {b : ProcessedSites} {frs : List ProcessedSites}
    (hb : SelfSites b frs) {k : String} {s : Site}
    (h : lookup k b.sites = some s) : GoodSite s :=
  hb.entries (k, s) (mem_of_lookup_eq_some h)

theorem goodSite_add {s o : Site} (hs : GoodSite s) (_ho : GoodSite o) :
    GoodSite (Site.add s o) :=
  ⟨nodupKeys_mergeInto o.tags hs.1, hs.2⟩

theorem siteAt_osadd {x y : Option Site} {k : String}
    {fs1 fs2 : List ProcessedSites} (hx : SiteAt x k fs1) (hy : SiteAt y k fs2)
    (hny : ∀ o : Site, y = some o → NodupKeys o.tags) :
    SiteAt (osadd x y) k (fs1 ++ fs2) := by
  cases x with
  | none =>
    cases y with
    | none =>
      show qwSum k (fs1 ++ fs2) = none
      rw [qwSum_append, hx, hy]
      rfl
    | some o =>
      show SiteAt (some o) k (fs1 ++ fs2)
      refine ⟨?_, ?_⟩
      · rw [qwSum_append, hx]
        exact hy.1
      · intro tk
        rw [tagSum_append, tagSum_eq_none_of_qwSum_eq_none hx tk]
        exact hy.2 tk
  | some s =>
    cases y with
    | none =>
      show SiteAt (some s) k (fs1 ++ fs2)
      refine ⟨?_, ?_⟩
      · rw [qwSum_append, hy, oadd_none_right]
        exact hx.1
      · intro tk
        rw [tagSum_append, tagSum_eq_none_of_qwSum_eq_none hy tk, oadd_none_right]
        exact hx.2 tk
    | some o =>
      show SiteAt (some (Site.add s o)) k (fs1 ++ fs2)
      refine ⟨?_, ?_⟩
      · rw [qwSum_append, ← hx.1, ← hy.1]
        rfl
      · intro tk
        rw [tagSum_append, ← hx.2 tk, ← hy.2 tk]
        rw [lookup_tags_siteAdd, osumAt_eq_lookup (hny o rfl)]

theorem reaches_combine {a b : ProcessedSites} {fs1 fs2 : List ProcessedSites}
    (ha : Reaches a fs1) (hb : SelfSites b fs2) :
    Reaches (combine a b) (fs1 ++ fs2) := by
  refine ⟨⟨?_, ?_, ?_, ?_⟩, ?_, ?_, ?_⟩
  · exact nodupKeys_sites_foldl_combineStep b.sites ha.self.nodup
  · exact sites_values_foldl_combineStep (fun s o hs ho => goodSite_add hs ho)
      b.sites ha.self.entries hb.entries
  · intro k
    rw [lookup_sites_combine a hb.nodup]
    exact siteAt_osadd (ha.self.siteAt k) (hb.siteAt k)
      (fun o ho => (goodSite_of_lookup hb ho).1)
  · intro tk
    rw [sitesTagSum_combine, ha.self.gsum, hb.gsum, gtagSum_append]
  · rw [combine_padron, ha.hpadron]
  · rw [combine_totals, ha.htotals]
  · intro tk
    rw [lookup_tags_combine, ha.htags, hb.gsum, gtagSum_append]

theorem nodupKeys_foldl_insertEntry (ts : List String) (w : Nat)
    {m : List (String × Tag)} (h : NodupKeys m) :
    NodupKeys (ts.foldl (fun m tag => insertEntry tag ⟨1, w⟩ m) m) := by
  induction ts generalizing m with
  | nil => exact h
  | cons t rest ih => exact ih (nodupKeys_updateEntry _ _ _ h)

theorem nodupKeys_lineTags (ts : List String) (w : Nat) :
    NodupKeys (lineTags ts w) :=
  nodupKeys_foldl_insertEntry ts w (by simp [NodupKeys, keys])

theorem selfSites_lineFragment (name : String) (l : Line) :
    SelfSites (lineFragment name l) [lineFragment name l] := by
  have hs : (lineFragment name l).sites =
      [(name, ⟨1, lineWords l, lineTags l.tags (lineWords l), []⟩)] := rfl
  refine ⟨?_, ?_, ?_, ?_⟩
  · rw [hs]
    simp [NodupKeys, keys]
  · intro e he
    rw [hs, List.mem_singleton] at he
    subst he
    exact ⟨nodupKeys_lineTags _ _, rfl⟩
  · intro k
    by_cases hk : name = k
    · subst hk
      have hl : lookup name (lineFragment name l).sites =
          some ⟨1, lineWords l, lineTags l.tags (lineWords l), []⟩ := by
        rw [hs]
        simp [lookup]
      rw [hl]
      refine ⟨?_, ?_⟩
      · simp [qwSum, fragQW, listOsum_cons, listOsum_nil, oadd_none_right, hl]
      · intro tk
        simp [tagSum, fragTagAt, listOsum_cons, listOsum_nil, oadd_none_right, hl]
    · have hl : lookup k (lineFragment name l).sites = none := by
        rw [hs]
        simp [lookup, hk]
      rw [hl]
      show qwSum k [lineFragment name l] = none
      simp [qwSum, fragQW, listOsum_cons, listOsum_nil, oadd_none_right, hl]
  · intro tk
    show sitesTagSum tk (lineFragment name l).sites = gtagSum tk [lineFragment name l]
    simp [gtagSum, listOsum_cons, listOsum_nil, oadd_none_right]

theorem reaches_empty : Reaches emptyPS [] := by
  refine ⟨⟨?_, ?_, ?_, ?_⟩, rfl, rfl, ?_⟩
  · simp [NodupKeys, keys, emptyPS]
  · intro e he
    simp [emptyPS] at he
  · intro k
    have h : lookup k emptyPS.sites = none := rfl
    rw [h]
    rfl
  · intro tk
    rfl
  · intro tk
    rfl

theorem reaches_foldl {gs : List ProcessedSites} (frs : List ProcessedSites)
    {acc : ProcessedSites} (hacc : Reaches acc gs)
    (hfr : ∀ f ∈ frs, SelfSites f [f]) :
    Reaches (frs.foldl combine acc) (gs ++ frs) := by
  induction frs generalizing acc gs with
  | nil => simpa using hacc
  | cons f rest ih =>
    have h1 : Reaches (combine acc f) (gs ++ [f]) :=
      reaches_combine hacc (hfr f (by simp))
    have h2 := ih h1 (fun g hg => hfr g (List.mem_cons_of_mem _ hg))
    simpa [List.append_assoc] using h2

theorem selfSites_of_mem_allFragments {parts : List (String × List Line)}
    {f : ProcessedSites} (h : f ∈ allFragments parts) : SelfSites f [f] := by
  rw [allFragments, List.mem_flatMap] at h
  obtain ⟨p, hp, hf⟩ := h
  obtain ⟨l, hl, rfl⟩ := List.mem_map.mp hf
  exact selfSites_lineFragment p.1 l

theorem reaches_process_sites (parts : List (String × List Line)) :
    Reaches (process_sites parts) (allFragments parts) := by
  have h := reaches_foldl (allFragments parts) reaches_empty
    (fun f hf => selfSites_of_mem_allFragments hf)
  simpa using h

theorem siteAt_perm {x : Option Site} {k : String}
    {frs frs' : List ProcessedSites} (h : frs.Perm frs')
    (hx : SiteAt x k frs) : SiteAt x k frs' := by
  cases x with
  | none =>
    show qwSum k frs' = none
    rw [← qwSum_perm k h]
    exact hx
  | some s =>
    refine ⟨?_, ?_⟩
    · rw [← qwSum_perm k h]
      exact hx.1
    · intro tk
      rw [← tagSum_perm k tk h]
      exact hx.2 tk

theorem selfSites_perm {b : ProcessedSites} {frs frs' : List ProcessedSites}
    (h : frs.Perm frs') (hb : SelfSites b frs) : SelfSites b frs' :=
  ⟨hb.nodup, hb.entries, fun k => siteAt_perm h (hb.siteAt k),
    fun tk => (hb.gsum tk).trans (gtagSum_perm tk h)⟩

theorem reaches_perm {a : ProcessedSites} {frs frs' : List ProcessedSites}
    (h : frs.Perm frs') (ha : Reaches a frs) : Reaches a frs' :=
  ⟨selfSites_perm h ha.self, ha.hpadron, ha.htotals,
    fun tk => (ha.htags tk).trans (gtagSum_perm tk h)⟩

theorem psEquiv_of_reaches {a b : ProcessedSites} {frs : List ProcessedSites}
    (ha : Reaches a frs) (hb : Reaches b frs) : PSEquiv a b := by
  refine ⟨ha.hpadron.trans hb.hpadron.symm, ?_, ?_, ?_⟩
  · intro k
    have hsa := ha.self.siteAt k
    have hsb := hb.self.siteAt k
    cases hla : lookup k a.sites with
    | none =>
      rw [hla] at hsa
      cases hlb : lookup k b.sites with
      | none => exact trivial
      | some o =>
        rw [hlb] at hsb
        exact absurd (hsb.1.trans hsa) (by simp)
    | some s =>
      rw [hla] at hsa
      cases hlb : lookup k b.sites with
      | none =>
        rw [hlb] at hsb
        exact absurd (hsa.1.trans hsb) (by simp)
      | some o =>
        rw [hlb] at hsb
        have hqw := Option.some.inj (hsa.1.trans hsb.1.symm)
        refine ⟨congrArg Tag.questions hqw, congrArg Tag.words hqw, ?_, ?_⟩
        · intro tk
          exact (hsa.2 tk).trans (hsb.2 tk).symm
        · exact ((goodSite_of_lookup ha.self hla).2).trans
            ((goodSite_of_lookup hb.self hlb).2).symm
  · intro tk
    exact (ha.htags tk).trans (hb.htags tk).symm
  · intro k
    rw [ha.htotals, hb.htotals]

theorem reaches_rtree_eval (t : RTree) : Reaches t.eval t.frags := by
  induction t with
  | seg pairs =>
    have hfr : ∀ f ∈ pairs.map (fun p => lineFragment p.1 p.2), SelfSites f [f] := by
      intro f hf
      obtain ⟨p, hp, rfl⟩ := List.mem_map.mp hf
      exact selfSites_lineFragment p.1 p.2
    have h := reaches_foldl (pairs.map (fun p => lineFragment p.1 p.2))
      reaches_empty hfr
    simpa using h
  | node l r ihl ihr => exact reaches_combine ihl ihr.self

/-- C1: for every finite list of partitions, the sites and tags totals of the
aggregate produced by `process_sites` are the same no matter how the per-line
fragments are grouped into identity-seeded segments and in what order or
degree of parallelism the segment results are pairwise combined: every
reduction schedule whose leaves consume the per-line fragments (in any order)
yields exactly the same questions/words totals per source and per tag — and
the same site and tag maps altogether — as the single sequential left fold
over all fragments. -/
theorem process_sites_reduce_schedule_invariant
    (parts : List (String × List Line)) (t : RTree)
    (h : t.frags.Perm (allFragments parts)) :
    PSEquiv t.eval (process_sites parts) :=
  psEquiv_of_reaches (reaches_perm h (reaches_rtree_eval t))
    (reaches_process_sites parts)

/-- Witness for C1: a concrete two-partition corpus reduced by a two-segment
schedule that processes the partitions in swapped order still matches the
sequential fold. -/
theorem process_sites_reduce_schedule_invariant_witness :
    PSEquiv
      (RTree.eval (RTree.node
        (RTree.seg [("siteB", ⟨["a"], ["t1", "t2"]⟩)])
        (RTree.seg [("siteA", ⟨["hello world"], ["t1"]⟩)])))
      (process_sites
        [("siteA", [⟨["hello world"], ["t1"]⟩]),
         ("siteB", [⟨["a"], ["t1", "t2"]⟩])]) :=
  process_sites_reduce_schedule_invariant _ _ (by decide)

/-! Associativity and commutativity of the merge operation (claim C2). -/

theorem siteEq_refl (s : Site) : SiteEq s s := ⟨rfl, rfl, fun _ => rfl, rfl⟩

theorem siteEq_add_assoc (s o p : Site) :
    SiteEq (Site.add (Site.add s o) p) (Site.add s (Site.add o p)) := by
  refine ⟨Nat.add_assoc _ _ _, Nat.add_assoc _ _ _, ?_, rfl⟩
  intro tk
  simp only [lookup_tags_siteAdd, osumAt_tags_siteAdd, oadd_assoc]

theorem siteEq_add_comm {s o : Site} (hs : GoodSite s) (ho : GoodSite o) :
    SiteEq (Site.add s o) (Site.add o s) := by
  refine ⟨Nat.add_comm _ _, Nat.add_comm _ _, ?_, hs.2.trans ho.2.symm⟩
  intro tk
  rw [lookup_tags_siteAdd, lookup_tags_siteAdd, osumAt_eq_lookup ho.1,
    osumAt_eq_lookup hs.1, oadd_comm]

theorem osadd_assoc_equiv (x y z : Option Site) :
    OSiteEq (osadd (osadd x y) z) (osadd x (osadd y z)) := by
  cases x <;> cases y <;> cases z <;>
    simp [osadd, OSiteEq, siteEq_refl, siteEq_add_assoc]

theorem osadd_comm_equiv {x y : Option Site}
    (hx : ∀ s : Site, x = some s → GoodSite s)
    (hy : ∀ s : Site, y = some s → GoodSite s) :
    OSiteEq (osadd x y) (osadd y x) := by
  cases x with
  | none =>
    cases y with
    | none => exact trivial
    | some o => exact siteEq_refl o
  | some s =>
    cases y with
    | none => exact siteEq_refl s
    | some o => exact siteEq_add_comm (hx s rfl) (hy o rfl)

theorem combine_assoc_equiv {a b c : ProcessedSites}
    (hb : NodupKeys b.sites) (hc : NodupKeys c.sites) :
    PSEquiv (combine (combine a b) c) (combine a (combine b c)) := by
  refine ⟨?_, ?_, ?_, ?_⟩
  · simp only [combine_padron]
  · intro k
    have hbc : NodupKeys (combine b c).sites :=
      nodupKeys_sites_foldl_combineStep c.sites hb
    rw [lookup_sites_combine _ hc, lookup_sites_combine _ hb,
      lookup_sites_combine _ hbc, lookup_sites_combine _ hc]
    exact osadd_assoc_equiv _ _ _
  · intro tk
    rw [lookup_tags_combine, lookup_tags_combine, lookup_tags_combine,
      sitesTagSum_combine, oadd_assoc]
  · intro k
    simp only [combine_totals]

theorem combine_comm_equiv {a b : ProcessedSites}
    (ha : WellFormed a) (hb : WellFormed b) :
    PSEquiv (combine a b) (combine b a) := by
  obtain ⟨ha1, ha2, ha3, ha4, ha5⟩ := ha
  obtain ⟨hb1, hb2, hb3, hb4, hb5⟩ := hb
  refine ⟨?_, ?_, ?_, ?_⟩
  · rw [combine_padron, combine_padron, ha1, hb1]
  · intro k
    rw [lookup_sites_combine _ hb3, lookup_sites_combine _ ha3]
    exact osadd_comm_equiv
      (fun s hs => ha4 (k, s) (mem_of_lookup_eq_some hs))
      (fun s hs => hb4 (k, s) (mem_of_lookup_eq_some hs))
  · intro tk
    rw [lookup_tags_combine, lookup_tags_combine, ha5 tk, hb5 tk, oadd_comm]
  · intro k
    rw [combine_totals, combine_totals, ha2, hb2]

/-- C2: the merge operation combining two aggregates of the same shape — two
sites for the same source name via `Site::add`, or two `ProcessedSites` via
the reduce combiner — is associative and commutative: on aggregates of the
shape the merge stage handles (rankings still empty, well-formed maps, the
global tags map being the per-tag sum of the sites' tag maps, as stipulated
by the spec's data-model invariants), `(a ⊕ b) ⊕ c` equals `a ⊕ (b ⊕ c)` and
`a ⊕ b` equals `b ⊕ a`, with exact integer addition of questions and words
and key-union of the maps. -/
theorem merge_assoc_comm :
    (∀ s o p : Site, GoodSite s → GoodSite o → GoodSite p →
      SiteEq (Site.add (Site.add s o) p) (Site.add s (Site.add o p)) ∧
      SiteEq (Site.add s o) (Site.add o s)) ∧
    (∀ a b c : ProcessedSites, WellFormed a → WellFormed b → WellFormed c →
      PSEquiv (combine (combine a b) c) (combine a (combine b c)) ∧
      PSEquiv (combine a b) (combine b a)) :=
  ⟨fun s o p hs ho _hp => ⟨siteEq_add_assoc s o p, siteEq_add_comm hs ho⟩,
   fun _a _b _c ha hb hc =>
     ⟨combine_assoc_equiv hb.2.2.1 hc.2.2.1, combine_comm_equiv ha hb⟩⟩

/-- Witness for C2 at concrete one-site aggregates. -/
theorem merge_assoc_comm_witness :
    (SiteEq (Site.add (Site.add sampleSite sampleSite2) sampleSite)
        (Site.add sampleSite (Site.add sampleSite2 sampleSite)) ∧
      SiteEq (Site.add sampleSite sampleSite2)
        (Site.add sampleSite2 sampleSite)) ∧
    (PSEquiv (combine (combine samplePS samplePS2) samplePS)
        (combine samplePS (combine samplePS2 samplePS)) ∧
      PSEquiv (combine samplePS samplePS2) (combine samplePS2 samplePS)) := by
  have hgs : GoodSite sampleSite := by decide
  have hgs2 : GoodSite sampleSite2 := by decide
  have hw : WellFormed samplePS := by
    refine ⟨rfl, rfl, by decide, ?_, ?_⟩
    · intro e he
      rw [show samplePS.sites = [("s", sampleSite)] from rfl,
        List.mem_singleton] at he
      subst he
      exact hgs
    · intro tk
      by_cases h : "t" = tk <;>
        simp [samplePS, sampleSite, lookup, sitesTagSum, osumAt,
          listOsum_cons, listOsum_nil, oadd_none_right, oadd, h]
  have hw2 : WellFormed samplePS2 := by
    refine ⟨rfl, rfl, by decide, ?_, ?_⟩
    · intro e he
      rw [show samplePS2.sites = [("s2", sampleSite2)] from rfl,
        List.mem_singleton] at he
      subst he
      exact hgs2
    · intro tk
      by_cases h : "u" = tk <;>
        simp [samplePS2, sampleSite2, lookup, sitesTagSum, osumAt,
          listOsum_cons, listOsum_nil, oadd_none_right, oadd, h]
  exact ⟨merge_assoc_comm.1 sampleSite sampleSite2 sampleSite hgs hgs2 hgs,
    merge_assoc_comm.2 samplePS samplePS2 samplePS hw hw2 hw⟩

/-! Global tags as per-source sums (claim C3). -/

theorem sitesTagSum_eq_lookup_form {sites : List (String × Site)}
    (hg : ∀ e ∈ sites, GoodSite e.2) (tk : String) :
    sitesTagSum tk sites =
      listOsum (sites.map (fun kv => lookup tk kv.2.tags)) := by
  unfold sitesTagSum
  congr 1
  apply List.map_congr_left
  intro e he
  exact osumAt_eq_lookup (hg e he).1

/-- C3: in the aggregate returned by `process_sites`, every tag `tk` present
in the global tags map has a questions count equal to the sum, over all
sources, of that source's questions count for `tk` (0 when the source lacks
the tag), likewise for words; and a tag present in the global tags map is
present in at least one source's tag map. -/
theorem global_tags_are_source_sums (parts : List (String × List Line))
    (tk : String) {t : Tag}
    (h : lookup tk (process_sites parts).tags = some t) :
    t.questions = ((process_sites parts).sites.map
        (fun kv => oq (lookup tk kv.2.tags))).sum ∧
    t.words = ((process_sites parts).sites.map
        (fun kv => ow (lookup tk kv.2.tags))).sum ∧
    ∃ e ∈ (process_sites parts).sites, (lookup tk e.2.tags).isSome = true := by
  have hr := reaches_process_sites parts
  have h1 : some t =
      listOsum ((process_sites parts).sites.map (fun kv => lookup tk kv.2.tags)) := by
    rw [← sitesTagSum_eq_lookup_form hr.self.entries tk, hr.self.gsum tk,
      ← hr.htags tk, h]
  refine ⟨?_, ?_, ?_⟩
  · have h2 := congrArg oq h1
    rw [oq_listOsum, List.map_map] at h2
    simpa [Function.comp, oq] using h2
  · have h2 := congrArg ow h1
    rw [ow_listOsum, List.map_map] at h2
    simpa [Function.comp, ow] using h2
  · by_contra hn
    push_neg at hn
    have hall : ∀ o ∈ (process_sites parts).sites.map
        (fun kv => lookup tk kv.2.tags), o = none := by
      intro o ho
      obtain ⟨e, he, rfl⟩ := List.mem_map.mp ho
      exact Option.not_isSome_iff_eq_none.mp (by simpa using hn e he)
    rw [← listOsum_eq_none_iff] at hall
    rw [hall] at h1
    exact Option.noConfusion h1

/-- Witness for C3 on the demo corpus: tag `t1` totals `{questions 2, words 3}`
and these equal the per-source sums. -/
theorem global_tags_are_source_sums_witness :
    (Tag.mk 2 3).questions = ((process_sites demoParts).sites.map
        (fun kv => oq (lookup "t1" kv.2.tags))).sum ∧
    (Tag.mk 2 3).words = ((process_sites demoParts).sites.map
        (fun kv => ow (lookup "t1" kv.2.tags))).sum ∧
    ∃ e ∈ (process_sites demoParts).sites, (lookup "t1" e.2.tags).isSome = true :=
  global_tags_are_source_sums demoParts "t1" (by decide)

/-! The Top-K selector `get_chatty` (claim C4). -/

theorem insertionSort_eq_of_sorted_perm {items l : List (String × ℚ)}
    (hp : items.Perm l) (hs : l.Sorted chattyLe) :
    List.insertionSort chattyLe items = l :=
  List.eq_of_perm_of_sorted
    ((List.perm_insertionSort chattyLe items).trans hp)
    (List.sorted_insertionSort chattyLe items) hs

/-- C4: `get_chatty` returns exactly the first `min 10 n` keys of the list of
all items sorted descending by ratio with ties broken by ascending key order
(any sorted permutation of the input gives the same answer, hence the order
is total and deterministic), its output does not depend on the iteration
order of the input map, ratios `{A: 2, B: 2, C: 3}` produce `[C, A, B]`, and
the output length is exactly `min 10 n`. -/
theorem get_chatty_spec :
    (∀ items l : List (String × ℚ), items.Perm l → l.Sorted chattyLe →
      get_chatty items = (l.map Prod.fst).take 10) ∧
    (∀ l1 l2 : List (String × ℚ), l1.Perm l2 →
      get_chatty l1 = get_chatty l2) ∧
    get_chatty [("A", 2), ("B", 2), ("C", 3)] = ["C", "A", "B"] ∧
    (∀ items : List (String × ℚ),
      (get_chatty items).length = min 10 items.length) := by
  refine ⟨?_, ?_, ?_, ?_⟩
  · intro items l hp hs
    rw [get_chatty, insertionSort_eq_of_sorted_perm hp hs, List.map_take]
  · intro l1 l2 hp
    have h1 : List.insertionSort chattyLe l1 = List.insertionSort chattyLe l2 :=
      insertionSort_eq_of_sorted_perm
        (hp.trans (List.perm_insertionSort chattyLe l2).symm)
        (List.sorted_insertionSort chattyLe l2)
    rw [get_chatty, get_chatty, h1]
  · decide
  · intro items
    rw [get_chatty, List.length_map, List.length_take,
      (List.perm_insertionSort chattyLe items).length_eq]

/-- Witness for C4: a concrete unsorted input, its sorted permutation, and
the theorem applied to them. -/
theorem get_chatty_spec_witness :
    ([("B", (2 : ℚ)), ("C", 3), ("A", 2)].Perm
        [("C", (3 : ℚ)), ("A", 2), ("B", 2)] ∧
      List.Sorted chattyLe [("C", (3 : ℚ)), ("A", 2), ("B", 2)]) ∧
    get_chatty [("B", (2 : ℚ)), ("C", 3), ("A", 2)] =
      (([("C", (3 : ℚ)), ("A", 2), ("B", 2)].map Prod.fst).take 10) :=
  ⟨⟨by decide, by decide⟩, get_chatty_spec.1 _ _ (by decide) (by decide)⟩

/-! Word counting of the map stage (claim C5). -/

theorem countTokens_append_space (b : Bool) (xs ys : List Char) :
    countTokens b (xs ++ ' ' :: ys) = countTokens b xs + countTokens false ys := by
  have hws : (' ' : Char).isWhitespace = true := rfl
  induction xs generalizing b with
  | nil => simp [countTokens, hws]
  | cons c cs ih =>
    by_cases hc : c.isWhitespace
    · simp [countTokens, hc, ih]
    · by_cases hb : b <;> simp [countTokens, hc, hb, ih, Nat.add_assoc]

theorem joinSpace_cons_data (t u : String) (us : List String) :
    (joinSpace (t :: u :: us)).data = t.data ++ ' ' :: (joinSpace (u :: us)).data := by
  show (t ++ " " ++ joinSpace (u :: us)).data = _
  simp [String.data_append, List.append_assoc]

theorem wordCount_joinSpace (ts : List String) :
    wordCount (joinSpace ts) = (ts.map wordCount).sum := by
  induction ts with
  | nil => rfl
  | cons t rest ih =>
    cases rest with
    | nil => simp [joinSpace, wordCount]
    | cons u us =>
      rw [wordCount, joinSpace_cons_data t u us, countTokens_append_space]
      have h1 : countTokens false (joinSpace (u :: us)).data =
          ((u :: us).map wordCount).sum := ih
      rw [h1]
      simp [wordCount, List.map_cons, List.sum_cons]

/-- C5: the word count a record's line contributes is the token count of its
texts joined with a single space — which is the map stage's `words` value —
and that count equals the sum of the per-string token counts, so it is
insensitive to which string boundary a word falls on (whitespace runs
collapse at join points); in particular texts `["a b", "c"]` count 3 words. -/
theorem map_stage_word_count :
    (∀ (name : String) (l : Line),
      lookup name (lineFragment name l).sites =
        some ⟨1, wordCount (joinSpace l.texts),
          lineTags l.tags (wordCount (joinSpace l.texts)), []⟩) ∧
    (∀ ts : List String, wordCount (joinSpace ts) = (ts.map wordCount).sum) ∧
    wordCount (joinSpace ["a b", "c"]) = 3 := by
  refine ⟨?_, wordCount_joinSpace, by decide⟩
  intro name l
  show lookup name [(name, _)] = _
  simp [lookup, lineWords]

/-! Per-tag attribution of the map stage (claims C6 and C9). -/

theorem lookup_foldl_insertEntry (ts : List String) (w : Nat) (t : String)
    (m : List (String × Tag)) :
    lookup t (ts.foldl (fun m tag => insertEntry tag ⟨1, w⟩ m) m) =
      if t ∈ ts then some ⟨1, w⟩ else lookup t m := by
  induction ts generalizing m with
  | nil => simp
  | cons s rest ih =>
    rw [List.foldl_cons, ih]
    by_cases h : t ∈ rest
    · rw [if_pos h, if_pos (List.mem_cons_of_mem s h)]
    · rw [if_neg h]
      by_cases hst : s = t
      · rw [if_pos (List.mem_cons.mpr (Or.inl hst.symm)), insertEntry,
          lookup_updateEntry, if_pos hst]
        cases lookup t m <;> rfl
      · have hnt : t ∉ s :: rest := by
          rw [List.mem_cons]
          push_neg
          exact ⟨fun he => hst he.symm, h⟩
        rw [if_neg hnt, insertEntry, lookup_updateEntry, if_neg hst]

theorem lookup_lineTags (ts : List String) (w : Nat) (t : String) :
    lookup t (lineTags ts w) = if t ∈ ts then some ⟨1, w⟩ else none := by
  rw [lineTags, lookup_foldl_insertEntry]
  rfl

/-- C6: the map stage attributes the full stat `{questions 1, words W}` to
every tag of the record, without dividing words across tags: each tag of the
line maps to exactly `⟨1, W⟩` in the fragment's site, and a record with tags
`{X, Y}` and 10 words contributes word count 10 and question count 1 to both
X's and Y's global totals. -/
theorem map_stage_full_stat_per_tag :
    (∀ (name : String) (l : Line) (t : String), t ∈ l.tags →
      ∃ s : Site, lookup name (lineFragment name l).sites = some s ∧
        lookup t s.tags = some ⟨1, lineWords l⟩) ∧
    (lookup "X" (process_sites
        [("s", [⟨["a b c d e f g h i j"], ["X", "Y"]⟩])]).tags =
      some ⟨1, 10⟩ ∧
    lookup "Y" (process_sites
        [("s", [⟨["a b c d e f g h i j"], ["X", "Y"]⟩])]).tags =
      some ⟨1, 10⟩) := by
  refine ⟨?_, by decide, by decide⟩
  intro name l t ht
  refine ⟨⟨1, lineWords l, lineTags l.tags (lineWords l), []⟩, ?_, ?_⟩
  · show lookup name [(name, _)] = _
    simp [lookup]
  · rw [lookup_lineTags, if_pos ht]

/-- Witness for C6: tag `tag1` of a concrete one-line record receives the
full stat. -/
theorem map_stage_full_stat_per_tag_witness :
    ("tag1" ∈ (Line.mk ["x y"] ["tag1"]).tags) ∧
    (∃ s : Site,
      lookup "s" (lineFragment "s" (Line.mk ["x y"] ["tag1"])).sites = some s ∧
      lookup "tag1" s.tags = some ⟨1, lineWords (Line.mk ["x y"] ["tag1"])⟩) :=
  ⟨by decide,
    map_stage_full_stat_per_tag.1 "s" (Line.mk ["x y"] ["tag1"]) "tag1" (by decide)⟩

/-- C9: a tag repeated in one line's tag sequence is recorded exactly once
with the full stat `⟨1, W⟩` (later occurrences overwrite earlier ones with
the same value), so a repeated tag is not double-counted: the fragment's tag
map sends `t` to `⟨1, W⟩` exactly when `t` occurs in the tag list, and a
record with tags `["X", "X"]` and 3 words yields the global total
`{questions 1, words 3}` for `X`, not `{2, 6}`. -/
theorem map_stage_duplicate_tags_once :
    (∀ (ts : List String) (w : Nat) (t : String),
      lookup t (lineTags ts w) = if t ∈ ts then some ⟨1, w⟩ else none) ∧
    lookup "X" (process_sites [("s", [⟨["a b c"], ["X", "X"]⟩])]).tags =
      some ⟨1, 3⟩ ∧
    (∃ s : Site,
      lookup "s" (process_sites [("s", [⟨["a b c"], ["X", "X"]⟩])]).sites =
        some s ∧ lookup "X" s.tags = some ⟨1, 3⟩) :=
  ⟨lookup_lineTags, by decide, by decide⟩

/-! Questions counts are at least 1 everywhere (claim C7). -/

theorem site_of_lineFragment {name : String} {l : Line} {k : String} {s : Site}
    (h : lookup k (lineFragment name l).sites = some s) :
    s = ⟨1, lineWords l, lineTags l.tags (lineWords l), []⟩ := by
  have hm := mem_of_lookup_eq_some h
  rw [show (lineFragment name l).sites =
      [(name, ⟨1, lineWords l, lineTags l.tags (lineWords l), []⟩)] from rfl,
    List.mem_singleton] at hm
  exact congrArg Prod.snd hm

theorem exists_lineFragment_of_mem_allFragments
    {parts : List (String × List Line)} {f : ProcessedSites}
    (h : f ∈ allFragments parts) : ∃ name l, f = lineFragment name l := by
  rw [allFragments, List.mem_flatMap] at h
  obtain ⟨p, _hp, hf⟩ := h
  obtain ⟨l, _hl, rfl⟩ := List.mem_map.mp hf
  exact ⟨p.1, l, rfl⟩

theorem fragQW_questions {name : String} {l : Line} (k : String) {t : Tag}
    (h : fragQW k (lineFragment name l) = some t) : 1 ≤ t.questions := by
  unfold fragQW at h
  cases hl : lookup k (lineFragment name l).sites with
  | none =>
    rw [hl] at h
    exact Option.noConfusion h
  | some s =>
    rw [hl, site_of_lineFragment hl] at h
    have ht : (⟨1, lineWords l⟩ : Tag) = t := Option.some.inj h
    rw [← ht]

theorem fragTagAt_questions {name : String} {l : Line} (k tk : String) {t : Tag}
    (h : fragTagAt k tk (lineFragment name l) = some t) : 1 ≤ t.questions := by
  unfold fragTagAt at h
  cases hl : lookup k (lineFragment name l).sites with
  | none => rw [hl] at h; simp at h
  | some s =>
    rw [hl] at h
    rw [site_of_lineFragment hl] at h
    simp only at h
    rw [lookup_lineTags] at h
    by_cases hm : tk ∈ l.tags
    · rw [if_pos hm] at h
      cases h
      exact le_refl 1
    · rw [if_neg hm] at h
      exact Option.noConfusion h

theorem foldl_insertEntry_values {w : Nat} (ts : List String)
    {m : List (String × Tag)} (hm : ∀ e ∈ m, e.2 = (⟨1, w⟩ : Tag)) :
    ∀ e ∈ ts.foldl (fun m tag => insertEntry tag ⟨1, w⟩ m) m,
      e.2 = (⟨1, w⟩ : Tag) := by
  induction ts generalizing m with
  | nil => exact hm
  | cons t rest ih =>
    exact ih (@updateEntry_values Tag (fun x => x = (⟨1, w⟩ : Tag))
      (fun _ => ⟨1, w⟩) t ⟨1, w⟩ m hm (fun x _ => rfl) rfl)

theorem osumAt_lineTags_questions {ts : List String} {w : Nat} {tk : String}
    {t : Tag} (h : osumAt tk (lineTags ts w) = some t) : 1 ≤ t.questions := by
  refine listOsum_questions_pos ?_ h
  intro o ho t' hot
  obtain ⟨kv, hkv, rfl⟩ := List.mem_map.mp ho
  have hv : kv.2 = (⟨1, w⟩ : Tag) :=
    foldl_insertEntry_values ts
      (fun e he => absurd he (List.not_mem_nil e)) kv hkv
  by_cases hk : kv.1 = tk
  · rw [if_pos hk, hv] at hot
    cases hot
    exact le_refl 1
  · rw [if_neg hk] at hot
    exact Option.noConfusion hot

theorem fragSitesTagSum_questions {name : String} {l : Line} (tk : String)
    {t : Tag} (h : sitesTagSum tk (lineFragment name l).sites = some t) :
    1 ≤ t.questions := by
  have hform : sitesTagSum tk (lineFragment name l).sites =
      osumAt tk (lineTags l.tags (lineWords l)) := by
    show oadd (osumAt tk (lineTags l.tags (lineWords l))) none = _
    rw [oadd_none_right]
  rw [hform] at h
  exact osumAt_lineTags_questions h

/-- C7: in the aggregate produced by `process_sites`, every stored source,
every entry of the global tags map, and every entry of every source's tag map
has a questions count of at least 1; hence none of the three ratio
computations of `process_chatty` (words/questions per site, per global tag,
and per site tag) ever divides by a zero questions count. -/
theorem no_zero_questions (parts : List (String × List Line)) :
    (∀ (k : String) (s : Site), lookup k (process_sites parts).sites = some s →
      1 ≤ s.questions ∧
      ∀ (tk : String) (t : Tag), lookup tk s.tags = some t → 1 ≤ t.questions) ∧
    (∀ (tk : String) (t : Tag),
      lookup tk (process_sites parts).tags = some t → 1 ≤ t.questions) := by
  have hr := reaches_process_sites parts
  constructor
  · intro k s hs
    have hsa := hr.self.siteAt k
    rw [hs] at hsa
    constructor
    · have hq : qwSum k (allFragments parts) = some ⟨s.questions, s.words⟩ :=
        hsa.1.symm
      refine listOsum_questions_pos ?_ hq
      intro o ho t' hot
      obtain ⟨f, hf, rfl⟩ := List.mem_map.mp ho
      obtain ⟨name, l, rfl⟩ := exists_lineFragment_of_mem_allFragments hf
      exact fragQW_questions k hot
    · intro tk t ht
      have h2 : tagSum k tk (allFragments parts) = some t :=
        (hsa.2 tk).symm.trans ht
      refine listOsum_questions_pos ?_ h2
      intro o ho t' hot
      obtain ⟨f, hf, rfl⟩ := List.mem_map.mp ho
      obtain ⟨name, l, rfl⟩ := exists_lineFragment_of_mem_allFragments hf
      exact fragTagAt_questions k tk hot
  · intro tk t ht
    have h2 : gtagSum tk (allFragments parts) = some t :=
      (hr.htags tk).symm.trans ht
    refine listOsum_questions_pos ?_ h2
    intro o ho t' hot
    obtain ⟨f, hf, rfl⟩ := List.mem_map.mp ho
    obtain ⟨name, l, rfl⟩ := exists_lineFragment_of_mem_allFragments hf
    exact fragSitesTagSum_questions tk hot

/-- Witness for C7: the demo corpus's site `siteA` and global tag `t1` both
have questions counts of at least 1. -/
theorem no_zero_questions_witness :
    1 ≤ (Site.mk 1 2 [("t1", ⟨1, 2⟩)] []).questions ∧
    1 ≤ (Tag.mk 2 3).questions :=
  ⟨((no_zero_questions demoParts).1 "siteA"
      (Site.mk 1 2 [("t1", ⟨1, 2⟩)] []) (by decide)).1,
    (no_zero_questions demoParts).2 "t1" (Tag.mk 2 3) (by decide)⟩

/-! The ranking phase `process_chatty` (claim C10). -/

theorem lookup_map_values {α β : Type} (f : α → β) (k : String)
    (m : List (String × α)) :
    lookup k (m.map (fun kv => (kv.1, f kv.2))) = (lookup k m).map f := by
  induction m with
  | nil => rfl
  | cons e rest ih => by_cases h : e.1 = k <;> simp [lookup, h, ih]

theorem lookup_insertEntry {α : Type} (k' : String) (v : α) (k : String)
    (m : List (String × α)) :
    lookup k (insertEntry k' v m) = if k' = k then some v else lookup k m := by
  rw [insertEntry, lookup_updateEntry]
  by_cases h : k' = k
  · rw [if_pos h, if_pos h]
    cases lookup k m <;> rfl
  · rw [if_neg h, if_neg h]

theorem insertEntry_self {α : Type} {k : String} {v : α}
    {m : List (String × α)} (h : lookup k m = some v) :
    insertEntry k v m = m := by
  induction m with
  | nil => exact Option.noConfusion h
  | cons e rest ih =>
    by_cases he : e.1 = k
    · have hv : some e.2 = some v := by
        rw [← h]
        simp [lookup, he]
      have hv2 := Option.some.inj hv
      rw [insertEntry, updateEntry, if_pos he, ← hv2]
    · have h2 : lookup k rest = some v := by
        rw [← h]
        simp [lookup, he]
      rw [insertEntry, updateEntry, if_neg he,
        show updateEntry (fun _ => v) k v rest = insertEntry k v rest from rfl,
        ih h2]

theorem process_chatty_sites_lookup (ps : ProcessedSites) (k : String) :
    lookup k (process_chatty ps).sites =
      (lookup k ps.sites).map extendChatty := by
  have hs : (process_chatty ps).sites =
      ps.sites.map (fun kv => (kv.1, extendChatty kv.2)) := rfl
  rw [hs]
  exact lookup_map_values extendChatty k ps.sites

/-- C10: `process_chatty` appends rather than replaces each site's ranking —
after a call each site's `chatty_tags` is its previous sequence followed by
the freshly computed top-10 of that site's tag ratios — while the `totals`
entries `chatty_sites` and `chatty_tags` are overwritten with the fresh
rankings; consequently calling it twice duplicates every site's
`chatty_tags` but leaves `totals` exactly as after a single call. -/
theorem process_chatty_extends_and_overwrites :
    (∀ (ps : ProcessedSites) (k : String),
      lookup k (process_chatty ps).sites =
        (lookup k ps.sites).map extendChatty) ∧
    (∀ s : Site, extendChatty s =
      { s with
          chatty_tags := s.chatty_tags ++
            get_chatty (s.tags.map (fun tv => (tv.1, tagRatio tv.2))) }) ∧
    (∀ ps : ProcessedSites,
      lookup "chatty_sites" (process_chatty ps).totals =
        some (get_chatty (ps.sites.map (fun kv => (kv.1, siteRatio kv.2)))) ∧
      lookup "chatty_tags" (process_chatty ps).totals =
        some (get_chatty (ps.tags.map (fun kv => (kv.1, tagRatio kv.2))))) ∧
    (∀ ps : ProcessedSites,
      (process_chatty (process_chatty ps)).totals = (process_chatty ps).totals) ∧
    (∀ (ps : ProcessedSites) (k : String),
      lookup k (process_chatty (process_chatty ps)).sites =
        (lookup k ps.sites).map
          (fun s =>
            { s with
                chatty_tags := (s.chatty_tags ++
                  get_chatty (s.tags.map (fun tv => (tv.1, tagRatio tv.2)))) ++
                  get_chatty (s.tags.map (fun tv => (tv.1, tagRatio tv.2))) })) := by
  have hne : ¬(("chatty_tags" : String) = "chatty_sites") := by decide
  have htags : ∀ ps : ProcessedSites, (process_chatty ps).tags = ps.tags :=
    fun _ps => rfl
  have htotals : ∀ ps : ProcessedSites, (process_chatty ps).totals =
      insertEntry "chatty_tags"
        (get_chatty (ps.tags.map (fun kv => (kv.1, tagRatio kv.2))))
        (insertEntry "chatty_sites"
          (get_chatty (ps.sites.map (fun kv => (kv.1, siteRatio kv.2))))
          ps.totals) :=
    fun _ps => rfl
  have hratios : ∀ ps : ProcessedSites,
      (process_chatty ps).sites.map (fun kv => (kv.1, siteRatio kv.2)) =
        ps.sites.map (fun kv => (kv.1, siteRatio kv.2)) := by
    intro ps
    rw [show (process_chatty ps).sites =
        ps.sites.map (fun kv => (kv.1, extendChatty kv.2)) from rfl,
      List.map_map]
    apply List.map_congr_left
    intro e _he
    rfl
  have hboth : ∀ {α : Type} (v1 v2 : α) (m : List (String × α)),
      insertEntry "chatty_tags" v2 (insertEntry "chatty_sites" v1
        (insertEntry "chatty_tags" v2 (insertEntry "chatty_sites" v1 m))) =
      insertEntry "chatty_tags" v2 (insertEntry "chatty_sites" v1 m) := by
    intro α v1 v2 m
    have h1 : lookup "chatty_sites" (insertEntry "chatty_tags" v2
        (insertEntry "chatty_sites" v1 m)) = some v1 := by
      rw [lookup_insertEntry, if_neg hne, lookup_insertEntry, if_pos rfl]
    rw [insertEntry_self h1]
    have h2 : lookup "chatty_tags" (insertEntry "chatty_tags" v2
        (insertEntry "chatty_sites" v1 m)) = some v2 := by
      rw [lookup_insertEntry, if_pos rfl]
    rw [insertEntry_self h2]
  refine ⟨process_chatty_sites_lookup, fun s => rfl, ?_, ?_, ?_⟩
  · intro ps
    constructor
    · rw [htotals]
      rw [lookup_insertEntry, if_neg hne, lookup_insertEntry, if_pos rfl]
    · rw [htotals]
      rw [lookup_insertEntry, if_pos rfl]
  · intro ps
    rw [htotals (process_chatty ps), htags, hratios, htotals ps, hboth]
  · intro ps k
    rw [process_chatty_sites_lookup, process_chatty_sites_lookup,
      Option.map_map]
    rfl

/-! Decode failures (claim C8). -/

theorem foldE_error {l : List (Except String ProcessedSites)}
    (acc : ProcessedSites)
    (hall : ∀ e, Except.error e ∈ l → e = PARSE_ERROR)
    (hsome : ∃ e, Except.error e ∈ l) :
    foldE l acc = Except.error PARSE_ERROR := by
  induction l generalizing acc with
  | nil =>
    obtain ⟨e, he⟩ := hsome
    exact absurd he (List.not_mem_nil _)
  | cons x rest ih =>
    cases x with
    | error e =>
      show Except.error e = _
      rw [hall e (by simp)]
    | ok f =>
      show foldE rest (combine acc f) = _
      apply ih
      · intro e he
        exact hall e (List.mem_cons_of_mem _ he)
      · obtain ⟨e, he⟩ := hsome
        rcases List.mem_cons.mp he with h | h
        · exact absurd h (by simp)
        · exact ⟨e, h⟩

theorem foldE_all_ok (l : List ProcessedSites) (acc : ProcessedSites) :
    foldE (l.map Except.ok) acc = Except.ok (l.foldl combine acc) := by
  induction l generalizing acc with
  | nil => rfl
  | cons f rest ih => exact ih (combine acc f)

theorem allFragmentsE_error_mem {parts : List (String × List (Option Line))}
    {e : String} (h : Except.error e ∈ allFragmentsE parts) :
    e = PARSE_ERROR := by
  rw [allFragmentsE, List.mem_flatMap] at h
  obtain ⟨p, _hp, hf⟩ := h
  obtain ⟨ol, _hl, hol⟩ := List.mem_map.mp hf
  cases ol with
  | none => exact Except.error.inj hol.symm
  | some l => exact Except.noConfusion hol

theorem allFragmentsE_all_some (parts : List (String × List Line)) :
    allFragmentsE (parts.map (fun p => (p.1, p.2.map some))) =
      (allFragments parts).map Except.ok := by
  induction parts with
  | nil => rfl
  | cons p rest ih =>
    show (p.2.map some).map (lineFragmentE p.1) ++
        allFragmentsE (rest.map (fun p => (p.1, p.2.map some))) =
      ((p.2.map (lineFragment p.1)) ++ allFragments rest).map Except.ok
    rw [ih, List.map_append, List.map_map, List.map_map]
    congr 1

/-- C8 (amended): a line that fails to decode aborts the whole computation —
the result is the decode failure and no aggregate is produced at all — with
the fixed diagnostic `PARSE_ERROR`; when every line decodes, the full
aggregate of `process_sites` is produced. -/
theorem parse_failure_aborts :
    (∀ parts : List (String × List (Option Line)),
      (∃ p ∈ parts, none ∈ p.2) →
      processSitesE parts = Except.error PARSE_ERROR) ∧
    (∀ parts : List (String × List Line),
      processSitesE (parts.map (fun p => (p.1, p.2.map some))) =
        Except.ok (process_sites parts)) := by
  constructor
  · intro parts hbad
    obtain ⟨p, hp, hnone⟩ := hbad
    apply foldE_error
    · intro e he
      exact allFragmentsE_error_mem he
    · refine ⟨PARSE_ERROR, ?_⟩
      rw [allFragmentsE, List.mem_flatMap]
      exact ⟨p, hp, List.mem_map.mpr ⟨none, hnone, rfl⟩⟩
  · intro parts
    rw [processSitesE, allFragmentsE_all_some, foldE_all_ok]
    rfl

/-- Witness for C8 (amended): a concrete partition with an undecodable line
aborts with the fixed diagnostic. -/
theorem parse_failure_aborts_witness :
    (∃ p ∈ [("siteB", [(none : Option Line)])], none ∈ p.2) ∧
    processSitesE [("siteB", [(none : Option Line)])] =
      Except.error PARSE_ERROR :=
  ⟨by decide, parse_failure_aborts.1 _ (by decide)⟩

/-- Counterexample to C8 as stated: the claim says the failure carries a
diagnostic identifying the offending partition and line, but two runs whose
only undecodable line lies in different partitions (`siteA`, at line index 1,
and `siteB`, at line index 0) produce the identical fixed diagnostic, which
does not mention either partition name; no diagnostic that is the same for
both runs can identify the offending partition or line. -/
theorem parse_failure_diagnostic_not_identifying :
    processSitesE [("siteA", [some ⟨["x"], ["t"]⟩, none])] =
      Except.error PARSE_ERROR ∧
    processSitesE [("siteB", [(none : Option Line)])] =
      Except.error PARSE_ERROR ∧
    ("siteA" : String) ≠ "siteB" :=
  ⟨rfl, rfl, by decide⟩

end StackStats
